import Mathlib

/-!
Shallow embedding of the `wpool` worker pool (package `wpool`, file
`wpool.go`): a generic dynamically-sized worker pool executing
request/response tasks submitted in groups.

Pure decision logic (`New`, the dispatch path of `Pool.task`, the worker
idle-timer branch, `Group.Wait` over a stream of select outcomes) is
translated to Lean functions.  The concurrent counter manipulation is
translated to labelled transition systems: one atomic instruction of the
Go source (`atomic.AddInt64`, `atomic.LoadInt64` together with the branch
on the loaded value) is one step, so that interleavings of goroutines are
exactly the interleavings of steps.  Machine integers (`int64`,
`time.Duration` in nanoseconds) are modelled as `Int`; the counters stay
far from 2^63 in every statement below, so wrap-around is not modelled.
-/

namespace WPool

/-- `defaultWorkerTimeout = time.Second * 5`, in nanoseconds. -/
def defaultWorkerTimeout : Int := 5 * 1000000000

/-- `defaultGroupsResponseChannelSize = 32`. -/
def defaultGroupsResponseChannelSize : Int := 32

/-- The `Options` structure of the source: zero values mean "use default". -/
structure Options where
  WorkersLimitMax : Int
  WorkersLimitMin : Int
  StopWorkerTimeout : Int
  GroupResponseChannelSize : Int
  deriving DecidableEq, Repr

/-- The pool configuration produced by `New`, together with its initial
`workersCount` and the list of eagerly spawned workers (each recorded by
its initial task, which is `nil` for workers spawned by `New`). -/
structure NewResult (Req : Type) where
  workersLimitMax : Int
  workersLimitMin : Int
  stopWorkerTimeout : Int
  groupResponseChannelSize : Int
  workersCount : Int
  spawned : List (Option Req)
  deriving DecidableEq, Repr

/-- `New` from the source: start from the defaults, then apply each of the
four option fields exactly when it is positive; a positive
`WorkersLimitMin` additionally adds that many to `workersCount` up front
and spawns that many workers with `nil` initial task. -/
def New (Req : Type) (opts : Option Options) : NewResult Req :=
  let wp : NewResult Req :=
    { workersLimitMax := 0
      workersLimitMin := 0
      stopWorkerTimeout := defaultWorkerTimeout
      groupResponseChannelSize := defaultGroupsResponseChannelSize
      workersCount := 0
      spawned := [] }
  match opts with
  | none => wp
  | some o =>
    let wp1 := if 0 < o.WorkersLimitMax then { wp with workersLimitMax := o.WorkersLimitMax } else wp
    let wp2 := if 0 < o.StopWorkerTimeout then { wp1 with stopWorkerTimeout := o.StopWorkerTimeout } else wp1
    let wp3 := if 0 < o.GroupResponseChannelSize then { wp2 with groupResponseChannelSize := o.GroupResponseChannelSize } else wp2
    if 0 < o.WorkersLimitMin then
      { wp3 with
          workersLimitMin := o.WorkersLimitMin
          workersCount := wp3.workersCount + o.WorkersLimitMin
          spawned := List.replicate o.WorkersLimitMin.toNat none }
    else wp3

/-- Outcome of one call of `Pool.task`: the fast non-blocking handoff, the
spawn of a new worker carrying the incremented count, or the
rollback-then-blocking-send path carrying the rolled-back count. -/
inductive DispatchAction where
  | handoff
  | spawnWorker (newCount : Int)
  | blockingSend (newCount : Int)
  deriving DecidableEq, Repr

/-- The dispatch decision of `Pool.task`: `handoffReady` is whether the
non-blocking send on `w.tasks` succeeds (an idle worker is receiving);
otherwise `count := atomic.AddInt64(&w.workersCount, 1)` and the branch on
`w.workersLimitMax <= 0 || count <= w.workersLimitMax` decides between
spawning a worker and rolling back followed by the blocking send. -/
def taskStep (limitMax count : Int) (handoffReady : Bool) : DispatchAction :=
  if handoffReady then DispatchAction.handoff
  else
    let c := count + 1
    if limitMax ≤ 0 ∨ c ≤ limitMax then DispatchAction.spawnWorker c
    else DispatchAction.blockingSend (c - 1)

/-- What a worker does when its idle timer fires. -/
inductive WorkerTimerAction where
  | retire
  | resetTimer
  deriving DecidableEq, Repr

/-- The timer branch of `Pool.newWorker`: retire exactly when the loaded
`workersCount` exceeds `workersLimitMin`, otherwise reset the timer and
keep waiting. -/
def workerOnTimer (limitMin observed : Int) : WorkerTimerAction :=
  if limitMin < observed then WorkerTimerAction.retire else WorkerTimerAction.resetTimer

/-- A snapshot of the pool's shared counter state together with the
control positions of all goroutines that touch it.  `liveWorkers` counts
workers that have not yet passed the retire check; `exiting` counts
workers that have passed the check (`LoadInt64 > workersLimitMin`) but
have not yet executed the deferred decrement; `mids` records, for every
dispatching goroutine currently between its optimistic `AddInt64(+1)` and
the following branch, the value that its `AddInt64` returned. -/
structure PState where
  limitMax : Int
  limitMin : Int
  workersCount : Int
  liveWorkers : Nat
  exiting : Nat
  mids : List Int
  deriving DecidableEq, Repr

/-- Labels of the atomic steps of the pool transition system. -/
inductive PLabel where
  | dispatchInc
  | dispatchSpawn
  | dispatchRollback
  | workerCheckRetire
  | workerExit
  deriving DecidableEq, Repr

/-- One atomic step of the pool: the optimistic increment in `Pool.task`,
the subsequent spawn (`go w.newWorker(t)`) or rollback
(`AddInt64(-1)`), a worker's retire check (the `LoadInt64` and the branch
on it), and a retiring worker's deferred decrement. -/
inductive PoolStep : PLabel → PState → PState → Prop where
  | inc (s : PState) :
      PoolStep PLabel.dispatchInc s
        { s with workersCount := s.workersCount + 1, mids := s.mids ++ [s.workersCount + 1] }
  | spawn (s : PState) (l1 : List Int) (v : Int) (l2 : List Int)
      (hm : s.mids = l1 ++ v :: l2) (hv : s.limitMax ≤ 0 ∨ v ≤ s.limitMax) :
      PoolStep PLabel.dispatchSpawn s
        { s with mids := l1 ++ l2, liveWorkers := s.liveWorkers + 1 }
  | rollback (s : PState) (l1 : List Int) (v : Int) (l2 : List Int)
      (hm : s.mids = l1 ++ v :: l2) (hmax : 0 < s.limitMax) (hv : s.limitMax < v) :
      PoolStep PLabel.dispatchRollback s
        { s with mids := l1 ++ l2, workersCount := s.workersCount - 1 }
  | checkRetire (s : PState) (hw : 0 < s.liveWorkers) (hc : s.limitMin < s.workersCount) :
      PoolStep PLabel.workerCheckRetire s
        { s with liveWorkers := s.liveWorkers - 1, exiting := s.exiting + 1 }
  | exitDec (s : PState) (he : 0 < s.exiting) :
      PoolStep PLabel.workerExit s
        { s with exiting := s.exiting - 1, workersCount := s.workersCount - 1 }

/-- A pool state reachable from `s` by any interleaving of atomic steps. -/
def PReach (s t : PState) : Prop :=
  Relation.ReflTransGen (fun a b => ∃ l, PoolStep l a b) s t

/-- The pool state right after `New` returns: the eagerly spawned workers
are live, nobody is mid-dispatch or mid-exit. -/
def PState.ofNew {Req : Type} (nr : NewResult Req) : PState :=
  { limitMax := nr.workersLimitMax
    limitMin := nr.workersLimitMin
    workersCount := nr.workersCount
    liveWorkers := nr.spawned.length
    exiting := 0
    mids := [] }

/-- `Pool.WorkersCount`: the atomic load of the counter. -/
def WorkersCount (s : PState) : Int := s.workersCount

/-- The caller-observable state of one `Group`: its atomic `counter`, the
requests of the tasks submitted to the pool but not yet executed by a
worker, and the contents of its buffered response channel. -/
structure GState (Req Resp : Type) where
  counter : Int
  pending : List Req
  ch : List Resp
  deriving DecidableEq, Repr

/-- A freshly constructed group: zero counter, empty channel, no task in
flight. -/
def freshGroup {Req Resp : Type} : GState Req Resp :=
  { counter := 0, pending := [], ch := [] }

/-- `Group.Go`: increment the counter and put one task for `r`, aimed at
this group's channel, in flight. -/
def goStep {Req Resp : Type} (g : GState Req Resp) (r : Req) : GState Req Resp :=
  { counter := g.counter + 1, pending := g.pending ++ [r], ch := g.ch }

/-- A sequence of `Group.Go` calls. -/
def goRun {Req Resp : Type} (g : GState Req Resp) (reqs : List Req) : GState Req Resp :=
  reqs.foldl goStep g

/-- One outcome of the `select` inside `Group.Wait`: either `ctx.Done()`
fired, or a response was received from the group's channel. -/
inductive WaitEv (Resp : Type) where
  | ctxDone
  | recv (v : Resp)
  deriving DecidableEq, Repr

/-- The `for { select ... } }` loop of `Group.Wait`, driven by the list of
select outcomes the scheduler produces: on `ctxDone` return what was
accumulated; on a received `v` append it, decrement the counter, and
return if the decrement reached zero.  `none` means the loop blocks
forever (the outcome stream was exhausted with the counter nonzero). -/
def waitLoop {Resp : Type} : Int → List (WaitEv Resp) → List Resp → Option (List Resp × Int)
  | _, [], _ => none
  | c, WaitEv.ctxDone :: _, dest => some (dest, c)
  | c, WaitEv.recv v :: rest, dest =>
    if c - 1 = 0 then some (dest ++ [v], c - 1) else waitLoop (c - 1) rest (dest ++ [v])

/-- `Group.Wait`: return `dest` unchanged at once when the counter is
already zero, otherwise run the select loop.  The result carries the
returned slice and the counter value at return. -/
def groupWait {Resp : Type} (c : Int) (evs : List (WaitEv Resp)) (dest : List Resp) :
    Option (List Resp × Int) :=
  if c = 0 then some (dest, c) else waitLoop c evs dest

/-- Labels for the three kinds of events that change a group's state. -/
inductive GLabel where
  | go
  | deliver
  | recv
  deriving DecidableEq, Repr

/-- One event on a group, for the pool whose handler is `h`: a `Group.Go`
call, a worker executing one in-flight task (any of them — workers run
concurrently) and appending `h r` to the group's channel, or `Group.Wait`
receiving the channel's head and decrementing the counter. -/
inductive GrpStep {Req Resp : Type} (h : Req → Resp) :
    GLabel → GState Req Resp → GState Req Resp → Prop where
  | go (g : GState Req Resp) (r : Req) :
      GrpStep h GLabel.go g
        { counter := g.counter + 1, pending := g.pending ++ [r], ch := g.ch }
  | deliver (g : GState Req Resp) (l1 : List Req) (r : Req) (l2 : List Req)
      (hp : g.pending = l1 ++ r :: l2) :
      GrpStep h GLabel.deliver g
        { counter := g.counter, pending := l1 ++ l2, ch := g.ch ++ [h r] }
  | recv (g : GState Req Resp) (v : Resp) (tl : List Resp) (hch : g.ch = v :: tl) :
      GrpStep h GLabel.recv g
        { counter := g.counter - 1, pending := g.pending, ch := tl }

/-- Group states reachable by any interleaving of submissions, worker
deliveries and receives. -/
def GrpReach {Req Resp : Type} (h : Req → Resp) (g1 g2 : GState Req Resp) : Prop :=
  Relation.ReflTransGen (fun a b => ∃ l, GrpStep h l a b) g1 g2

/-- Worker deliveries only, in any order: what happens between the last
`Go` and the start of `Wait` when the deadline is generous enough for
every handler call to finish. -/
def DeliverAll {Req Resp : Type} (h : Req → Resp) (g1 g2 : GState Req Resp) : Prop :=
  Relation.ReflTransGen (GrpStep h GLabel.deliver) g1 g2

/-- `Pool.AcquireGroup`: pop the free-list, or construct a fresh group
when it is empty. -/
def acquireGroup {Req Resp : Type} (fl : List (GState Req Resp)) :
    GState Req Resp × List (GState Req Resp) :=
  match fl with
  | [] => (freshGroup, [])
  | g :: tl => (g, tl)

/-- `Pool.ReleaseGroup`: put the group on the free-list only when its
counter is zero, otherwise leave everything unchanged. -/
def releaseGroup {Req Resp : Type} (fl : List (GState Req Resp)) (g : GState Req Resp) :
    List (GState Req Resp) :=
  if g.counter = 0 then g :: fl else fl

/-- The number of in-flight dispatch increments whose returned value
passed (or will pass) the `count <= workersLimitMax` test. -/
def passingCount (mids : List Int) (lim : Int) : Nat :=
  (mids.filter (fun v => decide (v ≤ lim))).length

theorem passingCount_le (mids : List Int) (lim : Int) : passingCount mids lim ≤ mids.length :=
  List.length_filter_le _ _

theorem passingCount_append (l1 l2 : List Int) (lim : Int) :
    passingCount (l1 ++ l2) lim = passingCount l1 lim + passingCount l2 lim := by
  simp [passingCount, List.filter_append]

theorem passingCount_cons (v : Int) (l : List Int) (lim : Int) :
    passingCount (v :: l) lim =
      (if v ≤ lim then 1 else 0) + passingCount l lim := by
  by_cases hv : v ≤ lim <;> simp [passingCount, List.filter_cons, hv, Nat.add_comm]

/-- C3 — In the dispatch triggered by `Group.Go`, when no idle worker is
ready, `workersCount` is atomically incremented; exactly when a max is
configured and the incremented count exceeds it, the increment is rolled
back and the task goes out as a blocking send carrying the rolled-back
count (the submitter waits for an existing worker instead of a new worker
being created); otherwise a new worker is spawned with the incremented
count standing. -/
theorem c3_dispatch_backpressure (limitMax count : Int) :
    (taskStep limitMax count false = DispatchAction.blockingSend count ↔
      0 < limitMax ∧ limitMax < count + 1) ∧
    (taskStep limitMax count false = DispatchAction.spawnWorker (count + 1) ↔
      limitMax ≤ 0 ∨ count + 1 ≤ limitMax) ∧
    taskStep limitMax count true = DispatchAction.handoff ∧
    (∀ s t : PState, PoolStep PLabel.dispatchInc s t →
      t.workersCount = s.workersCount + 1) ∧
    (∀ s t : PState, PoolStep PLabel.dispatchRollback s t →
      t.workersCount = s.workersCount - 1 ∧ t.liveWorkers = s.liveWorkers) := by
  refine ⟨?_, ?_, rfl, ?_, ?_⟩
  · by_cases hb : limitMax ≤ 0 ∨ count + 1 ≤ limitMax <;> simp [taskStep, hb] <;> omega
  · by_cases hb : limitMax ≤ 0 ∨ count + 1 ≤ limitMax <;> simp [taskStep, hb]
  · intro s t hst
    cases hst
    rfl
  · intro s t hst
    cases hst
    exact ⟨rfl, rfl⟩

/-- C4 — A worker whose idle timer fires retires exactly when the loaded
`workersCount` exceeds `workersLimitMin`, and otherwise resets its timer;
the retire check requires the current count to exceed the floor, and the
retiring worker's exit decrements `workersCount` by one. -/
theorem c4_idle_retire_iff (limitMin observed : Int) :
    (workerOnTimer limitMin observed = WorkerTimerAction.retire ↔ limitMin < observed) ∧
    (workerOnTimer limitMin observed = WorkerTimerAction.resetTimer ↔ observed ≤ limitMin) ∧
    (∀ s t : PState, PoolStep PLabel.workerCheckRetire s t →
      s.limitMin < s.workersCount) ∧
    (∀ s t : PState, PoolStep PLabel.workerExit s t →
      t.workersCount = s.workersCount - 1) := by
  refine ⟨?_, ?_, ?_, ?_⟩
  · by_cases hb : limitMin < observed <;> simp [workerOnTimer, hb]
  · by_cases hb : limitMin < observed
    · simp only [workerOnTimer, if_pos hb]
      constructor
      · intro he
        exact absurd he (by simp)
      · intro hle
        exact absurd hle (not_le.mpr hb)
    · simp only [workerOnTimer, if_neg hb]
      simpa using le_of_not_lt hb
  · intro s t hst
    cases hst with
    | checkRetire s hw hc => exact hc
  · intro s t hst
    cases hst
    rfl

/-- C5 — `Group.Wait` on a group whose counter is zero returns the input
accumulator unchanged at once, whatever the deadline and the channel
would have offered. -/
theorem c5_wait_idle_group (Resp : Type) (evs : List (WaitEv Resp)) (dest : List Resp) :
    groupWait 0 evs dest = some (dest, 0) := by
  simp [groupWait]

/-- C8 — `ReleaseGroup` puts the group on the free-list exactly when its
counter is zero, and otherwise changes nothing. -/
theorem c8_release_only_if_idle (Req Resp : Type)
    (fl : List (GState Req Resp)) (g : GState Req Resp) :
    (releaseGroup fl g = g :: fl ↔ g.counter = 0) ∧
    (g.counter ≠ 0 → releaseGroup fl g = fl) := by
  constructor
  · constructor
    · intro he
      by_contra hc
      rw [releaseGroup, if_neg hc] at he
      exact (List.cons_ne_self g fl) he.symm
    · intro hc
      rw [releaseGroup, if_pos hc]
  · intro hc
    rw [releaseGroup, if_neg hc]

/-- Witness for C8 at concrete groups: a busy group (counter 1) is not
pooled, an idle group (counter 0) is. -/
theorem c8_witness :
    releaseGroup ([] : List (GState Int Int)) ⟨1, [], []⟩ = [] ∧
    releaseGroup ([] : List (GState Int Int)) ⟨0, [], []⟩ = [⟨0, [], []⟩] :=
  ⟨(c8_release_only_if_idle Int Int [] ⟨1, [], []⟩).2 (by decide),
   (c8_release_only_if_idle Int Int [] ⟨0, [], []⟩).1.mpr rfl⟩

theorem waitLoop_deadline {Resp : Type} (vs : List Resp) :
    ∀ (c : Int) (rest : List (WaitEv Resp)) (dest : List Resp), (vs.length : Int) < c →
      waitLoop c (vs.map WaitEv.recv ++ WaitEv.ctxDone :: rest) dest
        = some (dest ++ vs, c - vs.length) := by
  induction vs with
  | nil =>
    intro c rest dest _
    simp [waitLoop]
  | cons v tl ih =>
    intro c rest dest hlt
    simp only [List.length_cons] at hlt
    have hne : ¬ (c - 1 = 0) := by omega
    have hstep : waitLoop c (List.map WaitEv.recv (v :: tl) ++ WaitEv.ctxDone :: rest) dest
        = if c - 1 = 0 then some (dest ++ [v], c - 1)
          else waitLoop (c - 1) (List.map WaitEv.recv tl ++ WaitEv.ctxDone :: rest)
            (dest ++ [v]) := rfl
    rw [hstep, if_neg hne, ih (c - 1) rest (dest ++ [v]) (by omega)]
    have h1 : (dest ++ [v]) ++ tl = dest ++ v :: tl := by simp
    have h2 : c - 1 - (tl.length : Int) = c - ((v :: tl).length : Int) := by
      simp only [List.length_cons]
      push_cast
      ring
    rw [h1, h2]

/-- C6 — When the deadline fires during `Group.Wait` after `k` responses
arrived, with more than `k` tasks outstanding, `Wait` returns exactly the
received responses appended to the input accumulator; the counter was
decremented once per received response and is left nonzero; and the
receives of `Wait` never touch the in-flight tasks (nothing is
cancelled). -/
theorem c6_wait_deadline (Req Resp : Type) (c : Int) (vs : List Resp)
    (rest : List (WaitEv Resp)) (dest : List Resp)
    (hlt : (vs.length : Int) < c) :
    groupWait c (vs.map WaitEv.recv ++ WaitEv.ctxDone :: rest) dest
      = some (dest ++ vs, c - vs.length) ∧
    c - (vs.length : Int) ≠ 0 ∧
    (∀ (h : Req → Resp) (g1 g2 : GState Req Resp),
      GrpStep h GLabel.recv g1 g2 → g2.pending = g1.pending) := by
  have hc0 : ¬ (c = 0) := by omega
  refine ⟨?_, by omega, ?_⟩
  · rw [groupWait, if_neg hc0]
    exact waitLoop_deadline vs c rest dest hlt
  · intro h g1 g2 hstep
    cases hstep
    rfl

/-- Witness for C6: two outstanding tasks, one response before the
deadline; `Wait` returns just that response and leaves the counter at 1. -/
theorem c6_witness :
    groupWait 2 [WaitEv.recv (5 : Int), WaitEv.ctxDone] [] = some ([5], 1) ∧
    (2 : Int) - ([(5 : Int)].length : Int) ≠ 0 := by
  have h := c6_wait_deadline Int Int 2 [5] [] [] (by decide)
  exact ⟨by simpa using h.1, h.2.1⟩

theorem goRun_spec {Req Resp : Type} (reqs : List Req) :
    ∀ g : GState Req Resp,
      goRun g reqs = ⟨g.counter + (reqs.length : Int), g.pending ++ reqs, g.ch⟩ := by
  induction reqs with
  | nil =>
    intro g
    cases g
    simp [goRun]
  | cons r tl ih =>
    intro g
    have h1 : goRun g (r :: tl) = goRun (goStep g r) tl := rfl
    rw [h1, ih (goStep g r)]
    simp only [goStep, GState.mk.injEq, List.length_cons]
    refine ⟨by push_cast; ring, by simp, trivial⟩

theorem deliverAll_perm {Req Resp : Type} (h : Req → Resp) (g1 g2 : GState Req Resp)
    (hd : DeliverAll h g1 g2) :
    g2.counter = g1.counter ∧
    (g2.pending.map h ++ g2.ch).Perm (g1.pending.map h ++ g1.ch) := by
  induction hd with
  | refl => exact ⟨rfl, List.Perm.refl _⟩
  | tail _ hbc ih =>
    cases hbc with
    | deliver g l1 r l2 hp =>
      refine ⟨ih.1, List.Perm.trans ?_ ih.2⟩
      rw [hp]
      simp only [List.map_append, List.map_cons]
      apply Multiset.coe_eq_coe.mp
      simp only [← Multiset.coe_add]
      simp only [← Multiset.cons_coe, ← Multiset.singleton_add, ← Multiset.coe_add]
      abel

theorem waitLoop_drain {Resp : Type} (vs : List Resp) :
    ∀ dest : List Resp, vs ≠ [] →
      waitLoop ((vs.length : Nat) : Int) (vs.map WaitEv.recv) dest = some (dest ++ vs, 0) := by
  induction vs with
  | nil =>
    intro dest hne
    exact absurd rfl hne
  | cons v tl ih =>
    intro dest _
    by_cases htl : tl = []
    · subst htl
      simp [waitLoop]
    · have hlen : 0 < tl.length := List.length_pos.mpr htl
      have hne : ¬ ((((v :: tl).length : Nat) : Int) - 1 = 0) := by
        simp only [List.length_cons]
        omega
      simp only [List.map_cons, waitLoop, if_neg hne]
      have hc : (((v :: tl).length : Nat) : Int) - 1 = ((tl.length : Nat) : Int) := by
        simp only [List.length_cons]
        push_cast
        ring
      rw [hc, ih (dest ++ [v]) htl]
      simp

/-- C1 — After `N ≥ 1` `Group.Go` calls on a fresh group, once the workers
have executed every in-flight task in whatever order the schedule
produced, a `Wait` whose deadline does not fire returns the input
accumulator extended by exactly `N` responses — a permutation of
`handler` applied to the submitted requests — and the counter reaches
zero. -/
theorem c1_go_wait_collects_all (Req Resp : Type) (h : Req → Resp)
    (reqs : List Req) (dest : List Resp) (gf : GState Req Resp)
    (hne : reqs ≠ [])
    (hd : DeliverAll h (goRun freshGroup reqs) gf)
    (hdone : gf.pending = []) :
    groupWait gf.counter (gf.ch.map WaitEv.recv) dest = some (dest ++ gf.ch, 0) ∧
    gf.ch.length = reqs.length ∧
    gf.ch.Perm (reqs.map h) := by
  have hg1 : goRun (freshGroup : GState Req Resp) reqs
      = ⟨(0 : Int) + (reqs.length : Int), [] ++ reqs, []⟩ := goRun_spec reqs freshGroup
  have hinv := deliverAll_perm h _ gf hd
  rw [hg1] at hinv
  have hperm : gf.ch.Perm (reqs.map h) := by
    have := hinv.2
    simp only [hdone, List.map_nil, List.nil_append, List.append_nil] at this
    simpa using this
  have hlen : gf.ch.length = reqs.length := by simpa using hperm.length_eq
  have hcnt : gf.counter = (reqs.length : Int) := by simpa using hinv.1
  have hrlen : 0 < reqs.length := List.length_pos.mpr hne
  have hchne : gf.ch ≠ [] := by
    intro he
    have h0 : reqs.length = 0 := by
      have h1 := hlen
      rw [he] at h1
      simpa using h1.symm
    omega
  have hc0 : ¬ (gf.counter = 0) := by
    rw [hcnt]
    omega
  refine ⟨?_, hlen, hperm⟩
  rw [groupWait, if_neg hc0, hcnt, ← hlen]
  exact waitLoop_drain gf.ch dest hchne

/-- Witness for C1: a doubling handler, requests 1 and 2 submitted, the
worker for 2 finishing first; `Wait` returns the two responses in arrival
order, a permutation of the handler images. -/
theorem c1_witness :
    groupWait (2 : Int) (List.map WaitEv.recv [(4 : Int), 2]) ([] : List Int)
      = some ([4, 2], 0) ∧
    [(4 : Int), 2].length = [(1 : Int), 2].length ∧
    List.Perm [(4 : Int), 2] (List.map (fun n : Int => 2 * n) [1, 2]) := by
  have hd : DeliverAll (fun n : Int => 2 * n) (goRun freshGroup [1, 2])
      (⟨2, [], [4, 2]⟩ : GState Int Int) := by
    have he : goRun (freshGroup : GState Int Int) [1, 2] = ⟨2, [1, 2], []⟩ := by decide
    rw [he]
    have hstep1 : GrpStep (fun n : Int => 2 * n) GLabel.deliver ⟨2, [1, 2], []⟩ ⟨2, [1], [4]⟩ := by
      have hcast : (⟨2, [1] ++ [], [] ++ [(fun n : Int => 2 * n) 2]⟩ : GState Int Int)
          = ⟨2, [1], [4]⟩ := by decide
      rw [← hcast]
      exact GrpStep.deliver _ [1] 2 [] rfl
    have hstep2 : GrpStep (fun n : Int => 2 * n) GLabel.deliver ⟨2, [1], [4]⟩ ⟨2, [], [4, 2]⟩ := by
      have hcast : (⟨2, [] ++ [], [4] ++ [(fun n : Int => 2 * n) 1]⟩ : GState Int Int)
          = ⟨2, [], [4, 2]⟩ := by decide
      rw [← hcast]
      exact GrpStep.deliver _ [] 1 [] rfl
    exact Relation.ReflTransGen.tail (Relation.ReflTransGen.single hstep1) hstep2
  have h := c1_go_wait_collects_all Int Int (fun n : Int => 2 * n) [1, 2] []
    ⟨2, [], [4, 2]⟩ (by decide) hd rfl
  simpa using h

theorem grpStep_counter {Req Resp : Type} (h : Req → Resp) (l : GLabel)
    (a b : GState Req Resp) (hstep : GrpStep h l a b) :
    b.counter - ((b.pending.length : Int) + (b.ch.length : Int))
      = a.counter - ((a.pending.length : Int) + (a.ch.length : Int)) := by
  cases hstep with
  | go g r =>
    simp only [List.length_append, List.length_cons, List.length_nil]
    push_cast
    ring
  | deliver g l1 r l2 hp =>
    rw [hp]
    simp only [List.length_append, List.length_cons, List.length_nil]
    push_cast
    ring
  | recv g v tl hch =>
    rw [hch]
    simp only [List.length_cons]
    push_cast
    ring

theorem grpReach_counter {Req Resp : Type} (h : Req → Resp) (g1 g2 : GState Req Resp)
    (hr : GrpReach h g1 g2) :
    g2.counter - ((g2.pending.length : Int) + (g2.ch.length : Int))
      = g1.counter - ((g1.pending.length : Int) + (g1.ch.length : Int)) := by
  induction hr with
  | refl => rfl
  | tail _ hbc ih =>
    obtain ⟨l, hstep⟩ := hbc
    exact (grpStep_counter h l _ _ hstep).trans ih

/-- C7 — A group built up by any legal interleaving of `Go`, worker
deliveries and `Wait` receives whose counter is back to zero has no
in-flight task and no residual response; releasing it pools it, and the
next `AcquireGroup` hands out exactly this group, equal to a freshly
constructed one. -/
theorem c7_release_reacquire_fresh (Req Resp : Type) (h : Req → Resp)
    (fl : List (GState Req Resp)) (g : GState Req Resp)
    (hr : GrpReach h freshGroup g) (hc : g.counter = 0) :
    acquireGroup (releaseGroup fl g) = (g, fl) ∧ g = freshGroup := by
  have hinv := grpReach_counter h freshGroup g hr
  have hz : (0 : Int) - ((0 : Int) + (0 : Int)) = 0 := by ring
  rw [show (freshGroup : GState Req Resp).counter = 0 from rfl] at hinv
  simp only [freshGroup, List.length_nil, Nat.cast_zero] at hinv
  have hplen : g.pending.length = 0 ∧ g.ch.length = 0 := by omega
  have hg : g = freshGroup := by
    obtain ⟨c, p, ch⟩ := g
    simp only [freshGroup, GState.mk.injEq]
    simp only at hc hplen
    exact ⟨hc, List.length_eq_zero.mp hplen.1, List.length_eq_zero.mp hplen.2⟩
  refine ⟨?_, hg⟩
  rw [releaseGroup, if_pos hc]
  rfl

/-- Witness for C7: a group that went through one `Go`, one delivery and
one receive is released and reacquired as a fresh group. -/
theorem c7_witness :
    acquireGroup (releaseGroup ([] : List (GState Int Int)) freshGroup) = (freshGroup, []) ∧
    (freshGroup : GState Int Int) = freshGroup := by
  have hstep1 : GrpStep (fun n : Int => 2 * n) GLabel.go freshGroup ⟨1, [1], []⟩ := by
    rw [show (freshGroup : GState Int Int) = ⟨0, [], []⟩ from rfl]
    have hcast : (⟨(0 : Int) + 1, [] ++ [(1 : Int)], ([] : List Int)⟩ : GState Int Int)
        = ⟨1, [1], []⟩ := by decide
    rw [← hcast]
    exact GrpStep.go _ 1
  have hstep2 : GrpStep (fun n : Int => 2 * n) GLabel.deliver ⟨1, [1], []⟩ ⟨1, [], [2]⟩ := by
    have hcast : (⟨(1 : Int), [] ++ [], [] ++ [(fun n : Int => 2 * n) 1]⟩ : GState Int Int)
        = ⟨1, [], [2]⟩ := by decide
    rw [← hcast]
    exact GrpStep.deliver _ [] 1 [] rfl
  have hstep3 : GrpStep (fun n : Int => 2 * n) GLabel.recv ⟨1, [], [2]⟩ freshGroup := by
    rw [show (freshGroup : GState Int Int) = ⟨0, [], []⟩ from rfl]
    have hcast : (⟨(1 : Int) - 1, ([] : List Int), ([] : List Int)⟩ : GState Int Int)
        = ⟨0, [], []⟩ := by decide
    rw [← hcast]
    exact GrpStep.recv _ 2 [] rfl
  have hr : GrpReach (fun n : Int => 2 * n) freshGroup freshGroup :=
    Relation.ReflTransGen.tail
      (Relation.ReflTransGen.tail
        (Relation.ReflTransGen.single ⟨GLabel.go, hstep1⟩)
        ⟨GLabel.deliver, hstep2⟩)
      ⟨GLabel.recv, hstep3⟩
  exact c7_release_reacquire_fresh Int Int (fun n : Int => 2 * n) [] freshGroup hr rfl

theorem New_some_spec (Req : Type) (o : Options) :
    New Req (some o) =
      { workersLimitMax := if 0 < o.WorkersLimitMax then o.WorkersLimitMax else 0
        workersLimitMin := if 0 < o.WorkersLimitMin then o.WorkersLimitMin else 0
        stopWorkerTimeout :=
          if 0 < o.StopWorkerTimeout then o.StopWorkerTimeout else defaultWorkerTimeout
        groupResponseChannelSize :=
          if 0 < o.GroupResponseChannelSize then o.GroupResponseChannelSize
          else defaultGroupsResponseChannelSize
        workersCount := if 0 < o.WorkersLimitMin then o.WorkersLimitMin else 0
        spawned :=
          if 0 < o.WorkersLimitMin then List.replicate o.WorkersLimitMin.toNat none
          else [] } := by
  unfold New
  by_cases h1 : 0 < o.WorkersLimitMax <;> by_cases h2 : 0 < o.StopWorkerTimeout <;>
    by_cases h3 : 0 < o.GroupResponseChannelSize <;> by_cases h4 : 0 < o.WorkersLimitMin <;>
    simp [h1, h2, h3, h4]

/-- C9 — With `nil` options, or options all of whose fields are zero, `New`
yields the defaults: a 5 second `stopWorkerTimeout`, response channel size
32, no worker maximum, no worker minimum, and no eagerly started worker;
and whenever `WorkersLimitMin = m > 0` is given, exactly `m` workers are
started at construction, each with no initial task. -/
theorem c9_new_defaults_and_min (Req : Type) :
    (New Req none).stopWorkerTimeout = 5 * 1000000000 ∧
    (New Req none).groupResponseChannelSize = 32 ∧
    (New Req none).workersLimitMax = 0 ∧
    (New Req none).workersLimitMin = 0 ∧
    (New Req none).spawned = [] ∧
    (∀ o : Options, o.WorkersLimitMax = 0 → o.WorkersLimitMin = 0 →
      o.StopWorkerTimeout = 0 → o.GroupResponseChannelSize = 0 →
      New Req (some o) = New Req none) ∧
    (∀ o : Options, 0 < o.WorkersLimitMin →
      (New Req (some o)).spawned = List.replicate o.WorkersLimitMin.toNat none ∧
      (New Req (some o)).workersLimitMin = o.WorkersLimitMin) := by
  refine ⟨rfl, rfl, rfl, rfl, rfl, ?_, ?_⟩
  · intro o h1 h2 h3 h4
    rw [New_some_spec]
    simp [h1, h2, h3, h4, New, defaultWorkerTimeout, defaultGroupsResponseChannelSize]
  · intro o ho
    rw [New_some_spec]
    simp [ho]

/-- Witness for C9 at concrete options: the all-zero options give the same
pool as `nil` options, and `WorkersLimitMin = 3` spawns three task-less
workers. -/
theorem c9_witness :
    New Int (some ⟨0, 0, 0, 0⟩) = New Int none ∧
    (New Int (some ⟨0, 3, 0, 0⟩)).spawned = List.replicate 3 none := by
  have h := c9_new_defaults_and_min Int
  refine ⟨h.2.2.2.2.2.1 ⟨0, 0, 0, 0⟩ rfl rfl rfl rfl, ?_⟩
  have h2 := (h.2.2.2.2.2.2 ⟨0, 3, 0, 0⟩ (by decide)).1
  simpa using h2

/-- C10 — With `WorkersLimitMin = m > 0`, `New` returns with
`workersCount` already equal to `m` (the constructor adds `m` up front,
before any spawned worker runs), `m` workers are recorded as spawned, and
no worker-side step (the retire check, the exit decrement, or a spawned
worker starting) ever increases the counter — workers only decrement it
on exit. -/
theorem c10_eager_count (Req : Type) (o : Options) (hmin : 0 < o.WorkersLimitMin) :
    (New Req (some o)).workersCount = o.WorkersLimitMin ∧
    WorkersCount (PState.ofNew (New Req (some o))) = o.WorkersLimitMin ∧
    (New Req (some o)).spawned.length = o.WorkersLimitMin.toNat ∧
    (∀ s t : PState, PoolStep PLabel.workerCheckRetire s t →
      t.workersCount = s.workersCount) ∧
    (∀ s t : PState, PoolStep PLabel.workerExit s t →
      t.workersCount = s.workersCount - 1) ∧
    (∀ s t : PState, PoolStep PLabel.dispatchSpawn s t →
      t.workersCount = s.workersCount) := by
  refine ⟨?_, ?_, ?_, ?_, ?_, ?_⟩
  · rw [New_some_spec]
    simp [hmin]
  · rw [New_some_spec]
    simp [WorkersCount, PState.ofNew, hmin]
  · rw [New_some_spec]
    simp [hmin]
  · intro s t hst
    cases hst
    rfl
  · intro s t hst
    cases hst
    rfl
  · intro s t hst
    cases hst
    rfl

/-- Witness for C10: `WorkersLimitMin = 3` gives `workersCount = 3` at
construction with three spawned workers. -/
theorem c10_witness :
    (New Int (some ⟨0, 3, 0, 0⟩)).workersCount = 3 ∧
    (New Int (some ⟨0, 3, 0, 0⟩)).spawned.length = 3 := by
  have h := c10_eager_count Int ⟨0, 3, 0, 0⟩ (by decide)
  exact ⟨h.1, by simpa using h.2.2.1⟩

theorem passingCount_nil (lim : Int) : passingCount [] lim = 0 := rfl

/-- The inductive invariant of the pool counter: `workersCount` is the
number of live (not yet decremented) workers plus the number of in-flight
dispatch increments; and, when a max is configured, the live and exiting
workers together with the in-flight increments that passed the limit test
never exceed the max. -/
def PInv (s : PState) : Prop :=
  s.workersCount = (s.liveWorkers : Int) + (s.exiting : Int) + (s.mids.length : Int) ∧
  (0 < s.limitMax →
    (s.liveWorkers : Int) + (s.exiting : Int) + (passingCount s.mids s.limitMax : Int)
      ≤ s.limitMax)

theorem PInv_step (l : PLabel) (s t : PState) (hst : PoolStep l s t) (hs : PInv s) :
    PInv t := by
  obtain ⟨hid, hJ⟩ := hs
  have hple : passingCount s.mids s.limitMax ≤ s.mids.length := passingCount_le _ _
  cases hst with
  | inc s =>
    constructor
    · simp only [List.length_append, List.length_cons, List.length_nil]
      push_cast
      omega
    · intro hlim
      simp only [passingCount_append, passingCount_cons, passingCount_nil] at *
      by_cases hv : s.workersCount + 1 ≤ s.limitMax <;> simp only [hv, if_pos, if_neg] <;>
        push_cast at * <;> omega
  | spawn s l1 v l2 hm hv =>
    have hlen : s.mids.length = l1.length + (l2.length + 1) := by
      rw [hm]
      simp
    have hpass : ∀ lim : Int, passingCount s.mids lim
        = passingCount l1 lim + ((if v ≤ lim then 1 else 0) + passingCount l2 lim) := by
      intro lim
      rw [hm, passingCount_append, passingCount_cons]
    constructor
    · simp only [List.length_append, hlen]
      push_cast at *
      omega
    · intro hlim
      have hlim2 : 0 < s.limitMax := hlim
      have hvle : v ≤ s.limitMax := by
        rcases hv with hv1 | hv2
        · omega
        · exact hv2
      have h1 := hJ hlim2
      rw [hpass s.limitMax, if_pos hvle] at h1
      show ((s.liveWorkers + 1 : Nat) : Int) + (s.exiting : Int)
          + ((passingCount (l1 ++ l2) s.limitMax : Nat) : Int) ≤ s.limitMax
      rw [passingCount_append]
      push_cast at *
      omega
  | rollback s l1 v l2 hm hmax hv =>
    have hlen : s.mids.length = l1.length + (l2.length + 1) := by
      rw [hm]
      simp
    have hvgt : ¬ (v ≤ s.limitMax) := by omega
    have hpass : passingCount s.mids s.limitMax
        = passingCount l1 s.limitMax + ((if v ≤ s.limitMax then 1 else 0)
          + passingCount l2 s.limitMax) := by
      rw [hm, passingCount_append, passingCount_cons]
    rw [if_neg hvgt] at hpass
    constructor
    · simp only [List.length_append, hlen]
      push_cast at *
      omega
    · intro hlim
      have h1 := hJ hlim
      rw [hpass] at h1
      simp only [passingCount_append]
      push_cast at *
      omega
  | checkRetire s hw hc =>
    constructor
    · push_cast at *
      omega
    · intro hlim
      have h1 := hJ hlim
      push_cast at *
      omega
  | exitDec s he =>
    constructor
    · push_cast at *
      omega
    · intro hlim
      have h1 := hJ hlim
      push_cast at *
      omega

theorem PReach_inv (s t : PState) (hr : PReach s t) (hs : PInv s) : PInv t := by
  induction hr with
  | refl => exact hs
  | tail _ hbc ih =>
    obtain ⟨l, hstep⟩ := hbc
    exact PInv_step l _ _ hstep ih

theorem PInv_ofNew (Req : Type) (o : Options)
    (hle : o.WorkersLimitMin ≤ o.WorkersLimitMax ∨ o.WorkersLimitMax ≤ 0) :
    PInv (PState.ofNew (New Req (some o))) := by
  rw [New_some_spec]
  constructor
  · by_cases h4 : 0 < o.WorkersLimitMin
    · simp [PState.ofNew, h4]
      omega
    · simp [PState.ofNew, h4]
  · intro hlim
    by_cases h1 : 0 < o.WorkersLimitMax
    · have hminmax : o.WorkersLimitMin ≤ o.WorkersLimitMax := by
        rcases hle with hx | hx
        · exact hx
        · omega
      by_cases h4 : 0 < o.WorkersLimitMin <;>
        simp [PState.ofNew, passingCount_nil, h1, h4] <;> omega
    · exfalso
      simp [PState.ofNew, h1] at hlim

theorem PReach_limits (s t : PState) (hr : PReach s t) :
    t.limitMax = s.limitMax ∧ t.limitMin = s.limitMin := by
  induction hr with
  | refl => exact ⟨rfl, rfl⟩
  | tail _ hbc ih =>
    obtain ⟨l, hstep⟩ := hbc
    cases hstep <;> exact ih

/-- C2 (amended) — In every state reachable from a freshly constructed
pool whose configured minimum does not exceed a configured maximum:
`workersCount` is never negative and always equals the live workers plus
the in-flight dispatch increments; when a nonzero max is configured the
count exceeds the max by at most the number of dispatch calls currently
between their optimistic increment and its resolution — in particular by
at most 1 when at most one dispatch is in flight — and does not exceed
the max at all whenever no dispatch is mid-increment. -/
theorem c2_amended_invariant (Req : Type) (o : Options) (s : PState)
    (hle : o.WorkersLimitMin ≤ o.WorkersLimitMax ∨ o.WorkersLimitMax ≤ 0)
    (hr : PReach (PState.ofNew (New Req (some o))) s) :
    0 ≤ WorkersCount s ∧
    WorkersCount s = (s.liveWorkers : Int) + (s.exiting : Int) + (s.mids.length : Int) ∧
    (0 < s.limitMax → WorkersCount s ≤ s.limitMax + (s.mids.length : Int)) ∧
    (0 < s.limitMax → s.mids = [] → WorkersCount s ≤ s.limitMax) := by
  have hinv := PReach_inv _ _ hr (PInv_ofNew Req o hle)
  obtain ⟨hid, hJ⟩ := hinv
  have hple : passingCount s.mids s.limitMax ≤ s.mids.length := passingCount_le _ _
  simp only [WorkersCount]
  refine ⟨by omega, hid, ?_, ?_⟩
  · intro hlim
    have h1 := hJ hlim
    omega
  · intro hlim hm
    have h1 := hJ hlim
    simp only [hm, passingCount_nil, List.length_nil] at h1 hid
    push_cast at h1 hid
    omega

/-- Witness for the amended C2 at the construction state of a pool with
min 1, max 2: the counter is 1, within bounds. -/
theorem c2_witness :
    0 ≤ WorkersCount (PState.ofNew (New Unit (some ⟨2, 1, 0, 0⟩))) ∧
    WorkersCount (PState.ofNew (New Unit (some ⟨2, 1, 0, 0⟩)))
      ≤ (PState.ofNew (New Unit (some ⟨2, 1, 0, 0⟩))).limitMax := by
  have h := c2_amended_invariant Unit ⟨2, 1, 0, 0⟩
    (PState.ofNew (New Unit (some ⟨2, 1, 0, 0⟩)))
    (Or.inl (by decide)) Relation.ReflTransGen.refl
  exact ⟨h.1, h.2.2.2 (by decide) (by decide)⟩

theorem pstep_cast (l : PLabel) (s t u : PState) (hst : PoolStep l s t) (htu : t = u) :
    PoolStep l s u := htu ▸ hst

/-- C2 (counterexample) — With `WorkersLimitMax = 1` and
`WorkersLimitMin = 1`, two dispatches incrementing concurrently reach a
state whose counter is `max + 2` (so the transient overshoot is not
bounded by 1), and continuing the same schedule — the single worker's
timer firing while the counter is inflated, then both rollbacks — reaches
a state whose counter is 0, strictly below the configured minimum. -/
theorem c2_counterexample :
    PReach (PState.ofNew (New Unit (some ⟨1, 1, 0, 0⟩))) ⟨1, 1, 3, 1, 0, [2, 3]⟩ ∧
    (PState.ofNew (New Unit (some ⟨1, 1, 0, 0⟩))).limitMax + 1
      < WorkersCount ⟨1, 1, 3, 1, 0, [2, 3]⟩ ∧
    PReach (PState.ofNew (New Unit (some ⟨1, 1, 0, 0⟩))) ⟨1, 1, 0, 0, 0, []⟩ ∧
    WorkersCount ⟨1, 1, 0, 0, 0, []⟩
      < (PState.ofNew (New Unit (some ⟨1, 1, 0, 0⟩))).limitMin := by
  have h0 : PState.ofNew (New Unit (some ⟨1, 1, 0, 0⟩)) = ⟨1, 1, 1, 1, 0, []⟩ := by decide
  have hs1 : PoolStep PLabel.dispatchInc ⟨1, 1, 1, 1, 0, []⟩ ⟨1, 1, 2, 1, 0, [2]⟩ :=
    pstep_cast _ _ _ _ (PoolStep.inc ⟨1, 1, 1, 1, 0, []⟩) (by decide)
  have hs2 : PoolStep PLabel.dispatchInc ⟨1, 1, 2, 1, 0, [2]⟩ ⟨1, 1, 3, 1, 0, [2, 3]⟩ :=
    pstep_cast _ _ _ _ (PoolStep.inc ⟨1, 1, 2, 1, 0, [2]⟩) (by decide)
  have hs3 : PoolStep PLabel.workerCheckRetire ⟨1, 1, 3, 1, 0, [2, 3]⟩ ⟨1, 1, 3, 0, 1, [2, 3]⟩ :=
    pstep_cast _ _ _ _
      (PoolStep.checkRetire ⟨1, 1, 3, 1, 0, [2, 3]⟩ (by decide) (by decide)) (by decide)
  have hs4 : PoolStep PLabel.workerExit ⟨1, 1, 3, 0, 1, [2, 3]⟩ ⟨1, 1, 2, 0, 0, [2, 3]⟩ :=
    pstep_cast _ _ _ _ (PoolStep.exitDec ⟨1, 1, 3, 0, 1, [2, 3]⟩ (by decide)) (by decide)
  have hs5 : PoolStep PLabel.dispatchRollback ⟨1, 1, 2, 0, 0, [2, 3]⟩ ⟨1, 1, 1, 0, 0, [2]⟩ :=
    pstep_cast _ _ _ _
      (PoolStep.rollback ⟨1, 1, 2, 0, 0, [2, 3]⟩ [2] 3 [] (by decide) (by decide) (by decide))
      (by decide)
  have hs6 : PoolStep PLabel.dispatchRollback ⟨1, 1, 1, 0, 0, [2]⟩ ⟨1, 1, 0, 0, 0, []⟩ :=
    pstep_cast _ _ _ _
      (PoolStep.rollback ⟨1, 1, 1, 0, 0, [2]⟩ [] 2 [] (by decide) (by decide) (by decide))
      (by decide)
  have hA : PReach ⟨1, 1, 1, 1, 0, []⟩ ⟨1, 1, 3, 1, 0, [2, 3]⟩ :=
    Relation.ReflTransGen.tail
      (Relation.ReflTransGen.single ⟨PLabel.dispatchInc, hs1⟩)
      ⟨PLabel.dispatchInc, hs2⟩
  have hB : PReach ⟨1, 1, 1, 1, 0, []⟩ ⟨1, 1, 0, 0, 0, []⟩ :=
    Relation.ReflTransGen.tail
      (Relation.ReflTransGen.tail
        (Relation.ReflTransGen.tail
          (Relation.ReflTransGen.tail hA ⟨PLabel.workerCheckRetire, hs3⟩)
          ⟨PLabel.workerExit, hs4⟩)
        ⟨PLabel.dispatchRollback, hs5⟩)
      ⟨PLabel.dispatchRollback, hs6⟩
  rw [h0]
  exact ⟨hA, by decide, hB, by decide⟩

end WPool
